import Mathlib

/-!
# Supplier-matching engine: shallow embedding

The repository ships a Django-based supplier-matching engine (text
normalization, four similarity scorers, a threshold-based matcher, a profile
builder and a batch applier).  The Python management commands implementing it
are not part of the source tree here; only their documentation
(`compare_supplier_matching_methods` README), the shell wrappers
(`backend/match_suppliers.sh`) and SQL maintenance scripts are.  The engine is
therefore modelled from the specification, definition by definition, over the
rationals (the spec's real-valued similarity scores are discretized where a
real-valued quantity such as a logarithm or a square root has no exact
rational value; each such discretization is documented at its definition).
The bank-account backfill SQL script `update_transaction_bank_accounts.sql`
is present in the source and is embedded from it directly.
-/

namespace SupplierMatch

attribute [local semireducible] Rat.inv Rat.mul Rat.add Rat.sub

/-- Split a character list into its maximal whitespace-free runs (words). -/
def splitWords (cs : List Char) : List (List Char) :=
  (cs.foldr
    (fun c acc =>
      if c.isWhitespace then
        [] :: acc
      else
        match acc with
        | [] => [[c]]
        | w :: ws => (c :: w) :: ws)
    [[]]).filter (fun w => w ≠ [])

/-- Join words with single spaces. -/
def joinWords : List (List Char) → List Char
  | [] => []
  | [w] => w
  | w :: ws => w ++ ' ' :: joinWords ws

/-- Modelled from the spec: light normalization shared by the Edit-Distance and
Shingle paths (the Python normalizer is not in the source tree): case-folding
plus whitespace collapse only, as a character list. -/
def normalizeLightL (cs : List Char) : List Char :=
  joinWords (splitWords (cs.map Char.toLower))

/-- Modelled from the spec: light normalization on strings. -/
def normalizeLight (s : String) : String :=
  String.mk (normalizeLightL s.data)

/-- Modelled from the spec: the domain stopword list of generic bank-statement
tokens removed on the Term-Vector and Hybrid paths.  The exact Python list is
not in the source tree; the spec names "payment", "invoice", "transfer" as
representative members. -/
def stopwords : List (List Char) := [('p' :: "ayment".data), ('i' :: "nvoice".data), ('t' :: "ransfer".data)]

/-- Modelled from the spec: strip punctuation and currency symbols from a
token, keeping letters and digits. -/
def stripNoise (w : List Char) : List Char :=
  w.filter (fun c => c.isAlpha || c.isDigit)

/-- Modelled from the spec: a token is noise if it is empty after stripping,
is a pure reference number (all digits), or is a domain stopword. -/
def isNoiseToken (w : List Char) : Bool :=
  w.isEmpty || w.all (fun c => c.isDigit) || stopwords.contains w

/-- Modelled from the spec: full normalization for the Term-Vector and Hybrid
paths, as a token list: light normalization (case-folding, whitespace split),
then punctuation stripping, reference-number and stopword removal. -/
def tokensFull (s : String) : List (List Char) :=
  ((splitWords (s.data.map Char.toLower)).map stripNoise).filter
    (fun w => !isNoiseToken w)

/-- Modelled from the spec: full normalization as a string. -/
def normalizeFull (s : String) : String :=
  String.mk (joinWords (tokensFull s))

/-- Fuel-bounded Levenshtein recursion, structural in the fuel so that the
kernel can evaluate it; the fuel is immaterial once it covers the total
length of the two lists. -/
def levFuel : ℕ → List Char → List Char → ℕ
  | _, [], bs => bs.length
  | _, a :: as, [] => (a :: as).length
  | 0, _ :: _, _ :: _ => 0
  | fuel + 1, a :: as, b :: bs =>
      min (min (levFuel fuel as (b :: bs) + 1) (levFuel fuel (a :: as) bs + 1))
          (levFuel fuel as bs + (if a = b then 0 else 1))

/-- Modelled from the spec: Levenshtein distance (minimum number of
single-character insertions, deletions and substitutions) between two
character lists, via the standard three-way recurrence. -/
def levenshtein (as bs : List Char) : ℕ :=
  levFuel (as.length + bs.length) as bs

/-- Modelled from the spec: normalized Levenshtein similarity
1 - (edit_distance / max(len(a), len(b))).  When both strings are empty the
rational convention 0 / 0 = 0 makes the value 1, the spec's both-empty
convention. -/
def editSim (a b : List Char) : ℚ :=
  1 - (levenshtein a b : ℚ) / (max a.length b.length : ℚ)

/-- Best (maximum) of a list of non-negative scores, 0 when empty. -/
def bestOf (l : List ℚ) : ℚ := l.foldr max 0

/-- Modelled from the spec: a supplier profile — supplier identifier, the
deduplicated list of (lightly-normalized) example descriptions, and the modal
category of the supplier's labeled transactions.  Derived term bags and
shingle sets are recomputed from the examples by the scorers. -/
structure SupplierProfile where
  id : ℕ
  examples : List String
  category : ℕ
deriving DecidableEq

/-- Modelled from the spec: the Edit-Distance Scorer.  The supplier's score is
the maximum over its example descriptions of the normalized Levenshtein
similarity between the lightly-normalized query and the example. -/
def editScore (q : String) (p : SupplierProfile) : ℚ :=
  bestOf (p.examples.map (fun e => editSim (normalizeLightL q.data) e.data))

/-- Modelled from the spec: the overlapping character n-grams of size n. -/
def shinglesN (n : ℕ) (cs : List Char) : List (List Char) :=
  (List.range (cs.length + 1 - n)).map (fun i => (cs.drop i).take n)

/-- Modelled from the spec: all character 3-, 4- and 5-grams of a character
list, as a finite set. -/
def shingleSetL (cs : List Char) : Finset (List Char) :=
  (shinglesN 3 cs ++ shinglesN 4 cs ++ shinglesN 5 cs).toFinset

/-- Modelled from the spec: the shingle set of the lightly-normalized query. -/
def shingleSet (s : String) : Finset (List Char) :=
  shingleSetL (normalizeLightL s.data)

/-- Modelled from the spec: the supplier's merged shingle set, the union over
its examples. -/
def profileShingles (p : SupplierProfile) : Finset (List Char) :=
  p.examples.foldr (fun e acc => shingleSetL e.data ∪ acc) ∅

/-- Modelled from the spec: Jaccard set-similarity (the spec allows Jaccard or
cosine for the Shingle Scorer; Jaccard is the documented choice here).  An
empty union yields 0 by the rational convention 0 / 0 = 0. -/
def jaccard (A B : Finset (List Char)) : ℚ :=
  ((A ∩ B).card : ℚ) / ((A ∪ B).card : ℚ)

/-- Modelled from the spec: the Shingle Scorer. -/
def shingleScore (q : String) (p : SupplierProfile) : ℚ :=
  jaccard (shingleSet q) (profileShingles p)

/-- Adjacent-word pairs of a token list, each joined with a space. -/
def bigrams : List (List Char) → List (List Char)
  | a :: b :: rest => (a ++ ' ' :: b) :: bigrams (b :: rest)
  | _ => []

/-- Modelled from the spec: the term document of a text — the unigrams plus
the adjacent-word bigrams of the fully-normalized text. -/
def docOf (s : String) : List (List Char) :=
  tokensFull s ++ bigrams (tokensFull s)

/-- The term documents of a supplier's examples, one per example. -/
def profileDocs (p : SupplierProfile) : List (List (List Char)) :=
  p.examples.map docOf

/-- The corpus of all profiles' example documents (the TF-IDF vector space is
built over all supplier profiles' normalized text). -/
def corpusOf (profiles : List SupplierProfile) : List (List (List Char)) :=
  profiles.flatMap profileDocs

/-- Number of corpus documents containing a term. -/
def df (corpus : List (List (List Char))) (t : List Char) : ℕ :=
  (corpus.filter (fun d => decide (t ∈ d))).length

/-- Modelled from the spec: the inverse-document-frequency weight.  The
real-valued logarithmic idf of the spec has no exact rational value, so it is
discretized to the integer weight N + 1 − df(t) (N the corpus size), which
like the spec's idf decreases as the document frequency grows. -/
def idfW (corpus : List (List (List Char))) (t : List Char) : ℕ :=
  corpus.length + 1 - df corpus t

/-- The TF-IDF weight of a term in a document: term count times idf weight. -/
def tfidfW (corpus : List (List (List Char))) (d : List (List Char)) (t : List Char) : ℕ :=
  d.count t * idfW corpus t

/-- The joint vocabulary of two documents. -/
def vocabOf (q d : List (List Char)) : Finset (List Char) :=
  (q ++ d).toFinset

/-- Modelled from the spec: cosine similarity between the TF-IDF vectors of
two documents.  The real square root of the norm product has no exact
rational value, so it is discretized to the integer floor square root
(Nat.sqrt); a zero denominator yields 0 by the rational convention. -/
def ratCosine (corpus : List (List (List Char))) (q d : List (List Char)) : ℚ :=
  ((∑ t ∈ vocabOf q d, tfidfW corpus q t * tfidfW corpus d t : ℕ) : ℚ) /
    ((Nat.sqrt ((∑ t ∈ vocabOf q d, (tfidfW corpus q t) ^ 2) *
        (∑ t ∈ vocabOf q d, (tfidfW corpus d t) ^ 2)) : ℕ) : ℚ)

/-- Insert a (supplier id, score) hit into a list sorted by score descending,
ties by supplier id ascending. -/
def insertHit (x : ℕ × ℚ) : List (ℕ × ℚ) → List (ℕ × ℚ)
  | [] => [x]
  | y :: ys =>
      if y.2 < x.2 ∨ (x.2 = y.2 ∧ x.1 ≤ y.1) then x :: y :: ys else y :: insertHit x ys

/-- Sort hits by score descending (insertion sort, deterministic). -/
def sortHits : List (ℕ × ℚ) → List (ℕ × ℚ)
  | [] => []
  | x :: xs => insertHit x (sortHits xs)

/-- All (supplier id, cosine score) hits of the query against every example
document of every profile. -/
def allHits (profiles : List SupplierProfile) (q : String) : List (ℕ × ℚ) :=
  profiles.flatMap (fun p =>
    (profileDocs p).map (fun d => (p.id, ratCosine (corpusOf profiles) (docOf q) d)))

/-- Modelled from the spec: the default top-K of the Term-Vector Scorer. -/
def defaultK : ℕ := 3

/-- Modelled from the spec: the Term-Vector Scorer.  The top-K highest-scoring
example documents across all suppliers are inspected and a supplier's score is
the best of its own hits among them (the best-of-K policy; the spec leaves
best-of versus average-of open and asks for one documented choice). -/
def tvScore (profiles : List SupplierProfile) (q : String) (p : SupplierProfile) : ℚ :=
  bestOf (((sortHits (allHits profiles q)).take defaultK).filterMap
    (fun h => if h.1 = p.id then some h.2 else none))

/-- Modelled from the spec: the Hybrid Scorer with configurable weights — the
weighted sum of the Term-Vector score and the Edit-Distance score.  Both
sub-scores are always computed; there is no short-circuit. -/
def hybridScoreW (w1 w2 : ℚ) (profiles : List SupplierProfile) (q : String)
    (p : SupplierProfile) : ℚ :=
  w1 * tvScore profiles q p + w2 * editScore q p

/-- Modelled from the spec: the Hybrid Scorer with the default weights
0.6 (term-vector) and 0.4 (edit-distance). -/
def hybridScore (profiles : List SupplierProfile) (q : String)
    (p : SupplierProfile) : ℚ :=
  hybridScoreW (6 / 10) (4 / 10) profiles q p

/-- Modelled from the spec: the closed set of scoring strategies. -/
inductive Strategy where
  | termVector
  | editDistance
  | hybrid
  | shingle
deriving DecidableEq

/-- Modelled from the spec: the strategy names exposed to callers. -/
def Strategy.label : Strategy → String
  | .termVector => "term-vector"
  | .editDistance => "edit-distance"
  | .hybrid => "hybrid"
  | .shingle => "shingle"

/-- Modelled from the spec: the similarity of a query description to one
supplier profile under a strategy.  Each strategy normalizes the description
as it requires: the Term-Vector and Hybrid paths tokenize via the full
normalization (stopwords removed), the Edit-Distance and Shingle paths use
the light normalization. -/
def scoreOf (st : Strategy) (profiles : List SupplierProfile) (q : String)
    (p : SupplierProfile) : ℚ :=
  match st with
  | .termVector => tvScore profiles q p
  | .editDistance => editScore q p
  | .hybrid => hybridScore profiles q p
  | .shingle => shingleScore q p

/-- Modelled from the spec: the externally visible accepted match — matched
supplier id, confidence on the 0–100 scale, and the strategy name. -/
structure MatchResult where
  supplier : ℕ
  confidence : ℚ
  strategy : String
deriving DecidableEq

/-- Keep the better of two (supplier id, score) candidates: strictly higher
score wins; an equal score wins only with a strictly smaller supplier id. -/
def better (a b : ℕ × ℚ) : ℕ × ℚ :=
  if a.2 < b.2 ∨ (a.2 = b.2 ∧ b.1 < a.1) then b else a

/-- Pick the maximum-scoring candidate, ties broken by supplier id ascending. -/
def pickBest : List (ℕ × ℚ) → Option (ℕ × ℚ)
  | [] => none
  | x :: xs => some (xs.foldl better x)

/-- Modelled from the spec: the Matcher.  Scores the description against every
retained profile under the chosen strategy, picks the maximum-scoring profile
(ties by supplier id ascending); if its score reaches the threshold, emits a
MatchResult with confidence = score rescaled to 0–100 and the strategy name,
otherwise emits no match. -/
def matchOne (desc : String) (profiles : List SupplierProfile) (st : Strategy)
    (threshold : ℚ) : Option MatchResult :=
  match pickBest (profiles.map (fun p => (p.id, scoreOf st profiles desc p))) with
  | none => none
  | some c =>
      if threshold ≤ c.2 then some ⟨c.1, 100 * c.2, st.label⟩ else none

/-- Modelled from the spec: the descriptions from a fixed description set that
are accepted (assigned a MatchResult rather than no match) at a threshold. -/
def acceptedAt (descs : List String) (profiles : List SupplierProfile)
    (st : Strategy) (threshold : ℚ) : List String :=
  descs.filter (fun d => (matchOne d profiles st threshold).isSome)

/-- Modelled from the spec: a labeled transaction — supplier reference, raw
description and category reference — as read from storage. -/
structure LabeledTxn where
  supplier : ℕ
  desc : String
  category : ℕ
deriving DecidableEq

/-- Modelled from the spec: transactions eligible for profile building — those
whose description is nonempty after normalization (empty descriptions are
disqualified upstream of the scorers). -/
def eligible (txns : List LabeledTxn) : List LabeledTxn :=
  txns.filter (fun t => normalizeLight t.desc ≠ "")

/-- Modelled from the spec: the most frequent category of a list (the spec
breaks ties by most-recent transaction; timestamps are outside this model, so
ties keep the earlier candidate, a fixed deterministic choice). -/
def modalCategory (cats : List ℕ) : ℕ :=
  cats.foldl (fun acc c => if cats.count acc < cats.count c then c else acc)
    (cats.headD 0)

/-- Modelled from the spec: the Supplier Profile Builder.  Groups eligible
labeled transactions by supplier id, discards suppliers with fewer than
min_examples transactions, and for each retained supplier stores the
deduplicated normalized example descriptions and the modal category. -/
def buildProfiles (txns : List LabeledTxn) (minExamples : ℕ) : List SupplierProfile :=
  ((eligible txns).map (fun t => t.supplier)).dedup.filterMap (fun i =>
    if minExamples ≤ ((eligible txns).filter (fun t => t.supplier = i)).length then
      some ⟨i, (((eligible txns).filter (fun t => t.supplier = i)).map
          (fun t => normalizeLight t.desc)).dedup,
        modalCategory (((eligible txns).filter (fun t => t.supplier = i)).map
          (fun t => t.category))⟩
    else none)

/-- From backend/match_suppliers.sh: the default of --min-examples. -/
def defaultMinExamples : ℕ := 2

/-- From backend/match_suppliers.sh: the default of --threshold. -/
def defaultThreshold : ℚ := 75 / 100

/-- Modelled from the spec: a stored transaction — identifier, description,
optional supplier reference and optional category reference. -/
structure StoredTxn where
  tid : ℕ
  desc : String
  supplier : Option ℕ
  category : Option ℕ
deriving DecidableEq

/-- Modelled from the spec: the storage read contract for unlabeled
transactions — those with a null supplier reference. -/
def readUnlabeledTransactions (store : List StoredTxn) : List StoredTxn :=
  store.filter (fun t => t.supplier = none)

/-- Modelled from the spec: the storage read contract for labeled
transactions — those with a non-null supplier reference. -/
def readLabeledTransactions (store : List StoredTxn) : List LabeledTxn :=
  store.filterMap (fun t =>
    match t.supplier with
    | some i => some ⟨i, t.desc, t.category.getD 0⟩
    | none => none)

/-- Modelled from the spec: the ApplySummary counters returned by the Batch
Applier. -/
structure ApplySummary where
  matched : ℕ
  skipped : ℕ
  failed : ℕ
deriving DecidableEq

/-- Modelled from the spec: one write-back — set the matched supplier id and
the supplier's modal category on the matched transaction. -/
def writeMatch (store : List StoredTxn) (tid supplierId categoryId : ℕ) :
    List StoredTxn :=
  store.map (fun t =>
    if t.tid = tid then
      { t with supplier := some supplierId, category := some categoryId }
    else t)

/-- Modelled from the spec: the Batch Applier.  Reads the unmatched
transactions (bounded by limit), builds profiles from the currently labeled
transactions, runs the Matcher on each and — unless dry_run — writes back the
matched supplier id and the supplier's modal category.  Storage write
failures are outside this model, so the failed counter stays 0. -/
def applyBatch (store : List StoredTxn) (st : Strategy) (threshold : ℚ)
    (limit : ℕ) (minExamples : ℕ) (dryRun : Bool) :
    ApplySummary × List StoredTxn :=
  let profiles := buildProfiles (readLabeledTransactions store) minExamples
  let targets := (readUnlabeledTransactions store).take limit
  let results := targets.filterMap (fun t =>
    (matchOne t.desc profiles st threshold).map (fun m => (t.tid, m)))
  let summary : ApplySummary :=
    ⟨results.length, targets.length - results.length, 0⟩
  let store2 :=
    if dryRun then store
    else results.foldl (fun acc r =>
      writeMatch acc r.1 r.2.supplier
        (((profiles.find? (fun p => p.id = r.2.supplier)).map
          (fun p => p.category)).getD 0)) store
  (summary, store2)

/-- A row of the transactions_transaction table, as far as the backfill script
update_transaction_bank_accounts.sql touches it: primary key, textual
account_id and the nullable bank_account_id foreign key. -/
structure TxnRow where
  rid : ℕ
  account_id : String
  bank_account_id : Option ℕ
deriving DecidableEq

/-- One UPDATE statement of update_transaction_bank_accounts.sql applied to
one row: SET bank_account_id = v WHERE account_id = acct AND bank_account_id
IS NULL. -/
def updateRow (acct : String) (v : ℕ) (r : TxnRow) : TxnRow :=
  if r.account_id = acct ∧ r.bank_account_id = none then
    { r with bank_account_id := some v }
  else r

/-- The (account_id, bank_account_id) pairs of the script's eight UPDATE
statements, in statement order. -/
def accountPairs : List (String × ℕ) :=
  [("82642706", 1), ("136638262", 2), ("101139825", 3), ("136637859", 4),
   ("136636846", 5), ("136637861", 6), ("115716450", 7), ("136638260", 8)]

/-- The per-row effect of running the script's UPDATE statements in order. -/
def runUpdatesRow (ps : List (String × ℕ)) (r : TxnRow) : TxnRow :=
  ps.foldl (fun acc p => updateRow p.1 p.2 acc) r

/-- The whole backfill script on a table state (each UPDATE is row-wise, so
the script is the row-wise composition over the whole table). -/
def runScript (rows : List TxnRow) : List TxnRow :=
  rows.map (runUpdatesRow accountPairs)


theorem normalizeLight_empty : normalizeLight "" = "" := by decide

theorem normalizeFull_empty : normalizeFull "" = "" := by decide

theorem tokensFull_empty : tokensFull "" = [] := by decide

theorem levFuel_nil_left (f : ℕ) (bs : List Char) : levFuel f [] bs = bs.length := by
  cases f <;> rfl

theorem levFuel_nil_right (f : ℕ) (a : Char) (as : List Char) :
    levFuel f (a :: as) [] = (a :: as).length := by
  cases f <;> rfl

theorem levFuel_succ (f : ℕ) (a : Char) (as : List Char) (b : Char) (bs : List Char) :
    levFuel (f + 1) (a :: as) (b :: bs) =
      min (min (levFuel f as (b :: bs) + 1) (levFuel f (a :: as) bs + 1))
          (levFuel f as bs + (if a = b then 0 else 1)) := rfl

theorem levFuel_congr : ∀ (f1 : ℕ) (as bs : List Char) (f2 : ℕ),
    as.length + bs.length ≤ f1 → as.length + bs.length ≤ f2 →
    levFuel f1 as bs = levFuel f2 as bs := by
  intro f1
  induction f1 with
  | zero =>
      intro as bs f2 h1 h2
      cases as with
      | nil => rw [levFuel_nil_left, levFuel_nil_left]
      | cons a as =>
          cases bs with
          | nil => rw [levFuel_nil_right, levFuel_nil_right]
          | cons b bs => simp only [List.length_cons] at h1; omega
  | succ g ih =>
      intro as bs f2 h1 h2
      cases as with
      | nil => rw [levFuel_nil_left, levFuel_nil_left]
      | cons a as =>
          cases bs with
          | nil => rw [levFuel_nil_right, levFuel_nil_right]
          | cons b bs =>
              cases f2 with
              | zero => simp only [List.length_cons] at h2; omega
              | succ g2 =>
                  rw [levFuel_succ, levFuel_succ]
                  simp only [List.length_cons] at h1 h2
                  rw [ih as (b :: bs) g2
                      (by simp only [List.length_cons]; omega)
                      (by simp only [List.length_cons]; omega),
                    ih (a :: as) bs g2
                      (by simp only [List.length_cons]; omega)
                      (by simp only [List.length_cons]; omega),
                    ih as bs g2 (by omega) (by omega)]

theorem levenshtein_nil_left (bs : List Char) : levenshtein [] bs = bs.length :=
  levFuel_nil_left _ bs

theorem levenshtein_nil_right (as : List Char) : levenshtein as [] = as.length := by
  cases as with
  | nil => rfl
  | cons a as => exact levFuel_nil_right _ a as

theorem levenshtein_cons (a : Char) (as : List Char) (b : Char) (bs : List Char) :
    levenshtein (a :: as) (b :: bs) =
      min (min (levenshtein as (b :: bs) + 1) (levenshtein (a :: as) bs + 1))
          (levenshtein as bs + (if a = b then 0 else 1)) := by
  show levFuel ((a :: as).length + (b :: bs).length) (a :: as) (b :: bs) = _
  rw [show (a :: as).length + (b :: bs).length = (as.length + bs.length + 1) + 1 by
    simp only [List.length_cons]; omega]
  rw [levFuel_succ]
  rw [levFuel_congr (as.length + bs.length + 1) as (b :: bs)
      (as.length + (b :: bs).length)
      (by simp only [List.length_cons]; omega) (le_refl _),
    levFuel_congr (as.length + bs.length + 1) (a :: as) bs
      ((a :: as).length + bs.length)
      (by simp only [List.length_cons]; omega) (le_refl _),
    levFuel_congr (as.length + bs.length + 1) as bs (as.length + bs.length)
      (by omega) (le_refl _)]
  rfl

theorem levenshtein_comm (as bs : List Char) : levenshtein as bs = levenshtein bs as := by
  have H : ∀ n (as bs : List Char), as.length + bs.length = n →
      levenshtein as bs = levenshtein bs as := by
    intro n
    induction n using Nat.strong_induction_on with
    | _ n ih =>
        intro as bs hn
        cases as with
        | nil => rw [levenshtein_nil_left, levenshtein_nil_right]
        | cons a as =>
            cases bs with
            | nil => rw [levenshtein_nil_left, levenshtein_nil_right]
            | cons b bs =>
                rw [levenshtein_cons, levenshtein_cons]
                rw [ih (as.length + (b :: bs).length)
                    (by subst hn; simp only [List.length_cons]; omega) as (b :: bs) rfl,
                  ih ((a :: as).length + bs.length)
                    (by subst hn; simp only [List.length_cons]; omega) (a :: as) bs rfl,
                  ih (as.length + bs.length)
                    (by subst hn; simp only [List.length_cons]; omega) as bs rfl]
                have hc : (if a = b then 0 else 1) = (if b = a then 0 else 1) := by
                  by_cases h : a = b <;> simp [h, Ne.symm, eq_comm]
                rw [hc, min_comm (levenshtein (b :: bs) as + 1)
                  (levenshtein bs (a :: as) + 1)]
  exact H (as.length + bs.length) as bs rfl

theorem levenshtein_le_max (as bs : List Char) :
    levenshtein as bs ≤ max as.length bs.length := by
  have H : ∀ n (as bs : List Char), as.length + bs.length = n →
      levenshtein as bs ≤ max as.length bs.length := by
    intro n
    induction n using Nat.strong_induction_on with
    | _ n ih =>
        intro as bs hn
        cases as with
        | nil => rw [levenshtein_nil_left]; exact le_max_right _ _
        | cons a as =>
            cases bs with
            | nil => rw [levenshtein_nil_right]; exact le_max_left _ _
            | cons b bs =>
                rw [levenshtein_cons]
                refine le_trans (min_le_right _ _) ?_
                have hcost : (if a = b then 0 else 1) ≤ 1 := by
                  by_cases h : a = b <;> simp [h]
                have hih := ih (as.length + bs.length)
                  (by subst hn; simp only [List.length_cons]; omega) as bs rfl
                have := Nat.add_le_add hih hcost
                refine le_trans this ?_
                simp only [List.length_cons]
                omega
  exact H (as.length + bs.length) as bs rfl

theorem editSim_comm (a b : List Char) : editSim a b = editSim b a := by
  unfold editSim
  rw [levenshtein_comm, max_comm (a.length : ℚ) (b.length : ℚ)]

theorem editSim_nonneg (a b : List Char) : 0 ≤ editSim a b := by
  unfold editSim
  rcases Nat.eq_zero_or_pos (max a.length b.length) with h | h
  · have h0 : (max (a.length : ℚ) (b.length : ℚ)) = 0 := by
      rw [← Nat.cast_max]; exact_mod_cast h
    rw [h0]; norm_num
  · have hle : (levenshtein a b : ℚ) ≤ max (a.length : ℚ) (b.length : ℚ) := by
      rw [← Nat.cast_max]; exact_mod_cast levenshtein_le_max a b
    have hpos : (0 : ℚ) < max (a.length : ℚ) (b.length : ℚ) := by
      rw [← Nat.cast_max]; exact_mod_cast h
    have := (div_le_one hpos).mpr hle
    linarith

theorem editSim_le_one (a b : List Char) : editSim a b ≤ 1 := by
  unfold editSim
  have h1 : (0 : ℚ) ≤ (levenshtein a b : ℚ) := by positivity
  have h2 : (0 : ℚ) ≤ (max a.length b.length : ℚ) := by positivity
  have := div_nonneg h1 h2
  linarith

theorem bestOf_nonneg (l : List ℚ) : 0 ≤ bestOf l := by
  induction l with
  | nil => simp [bestOf]
  | cons x xs ih => simpa [bestOf] using Or.inr (by simpa [bestOf] using ih)

theorem bestOf_le_one (l : List ℚ) (h : ∀ x ∈ l, x ≤ 1) : bestOf l ≤ 1 := by
  induction l with
  | nil => simp [bestOf]
  | cons x xs ih =>
      simp only [bestOf, List.foldr_cons, max_le_iff]
      exact ⟨h x (List.mem_cons_self x xs), ih (fun y hy => h y (List.mem_cons_of_mem x hy))⟩

theorem le_bestOf (l : List ℚ) (x : ℚ) (hx : x ∈ l) : x ≤ bestOf l := by
  induction l with
  | nil => cases hx
  | cons a as ih =>
      rcases List.mem_cons.mp hx with h | h
      · simp [bestOf, h]
      · simp only [bestOf, List.foldr_cons]
        exact le_max_of_le_right (ih h)

theorem bestOf_mem (l : List ℚ) (hne : l ≠ []) (hnn : ∀ x ∈ l, 0 ≤ x) :
    bestOf l ∈ l := by
  induction l with
  | nil => exact absurd rfl hne
  | cons a as ih =>
      by_cases h : as = []
      · subst h
        simp only [bestOf, List.foldr_cons, List.foldr_nil]
        have := hnn a (List.mem_cons_self a [])
        simp [max_eq_left this]
      · have hmem := ih h (fun x hx => hnn x (List.mem_cons_of_mem a hx))
        simp only [bestOf, List.foldr_cons]
        rcases le_total (as.foldr max 0) a with hle | hle
        · rw [max_eq_left hle]; exact List.mem_cons_self a as
        · rw [max_eq_right hle]; exact List.mem_cons_of_mem a hmem

theorem editScore_nonneg (q : String) (p : SupplierProfile) : 0 ≤ editScore q p :=
  bestOf_nonneg _

theorem editScore_le_one (q : String) (p : SupplierProfile) : editScore q p ≤ 1 := by
  refine bestOf_le_one _ ?_
  intro x hx
  rcases List.mem_map.mp hx with ⟨e, _, rfl⟩
  exact editSim_le_one _ _

theorem jaccard_nonneg (A B : Finset (List Char)) : 0 ≤ jaccard A B := by
  unfold jaccard; positivity

theorem jaccard_le_one (A B : Finset (List Char)) : jaccard A B ≤ 1 := by
  unfold jaccard
  rcases Nat.eq_zero_or_pos (A ∪ B).card with h | h
  · rw [h]; norm_num
  · have hsub : (A ∩ B).card ≤ (A ∪ B).card :=
      Finset.card_le_card (Finset.inter_subset_union)
    have hpos : (0 : ℚ) < ((A ∪ B).card : ℚ) := by exact_mod_cast h
    exact (div_le_one hpos).mpr (by exact_mod_cast hsub)

theorem shingleScore_nonneg (q : String) (p : SupplierProfile) : 0 ≤ shingleScore q p :=
  jaccard_nonneg _ _

theorem shingleScore_le_one (q : String) (p : SupplierProfile) : shingleScore q p ≤ 1 :=
  jaccard_le_one _ _

theorem shingleSet_empty : shingleSet "" = ∅ := by decide

theorem shingleScore_empty (p : SupplierProfile) : shingleScore "" p = 0 := by
  unfold shingleScore jaccard
  rw [shingleSet_empty, Finset.empty_inter]
  simp

theorem ratCosine_nonneg (corpus : List (List (List Char))) (q d : List (List Char)) :
    0 ≤ ratCosine corpus q d := by
  unfold ratCosine; positivity

theorem ratCosine_le_one (corpus : List (List (List Char))) (q d : List (List Char)) :
    ratCosine corpus q d ≤ 1 := by
  unfold ratCosine
  set n := ∑ t ∈ vocabOf q d, tfidfW corpus q t * tfidfW corpus d t with hn
  set s := Nat.sqrt ((∑ t ∈ vocabOf q d, (tfidfW corpus q t) ^ 2) *
      (∑ t ∈ vocabOf q d, (tfidfW corpus d t) ^ 2)) with hs
  have hcs : n ^ 2 ≤ (∑ t ∈ vocabOf q d, (tfidfW corpus q t) ^ 2) *
      (∑ t ∈ vocabOf q d, (tfidfW corpus d t) ^ 2) :=
    Finset.sum_mul_sq_le_sq_mul_sq (vocabOf q d) (fun t => tfidfW corpus q t)
      (fun t => tfidfW corpus d t)
  have hns : n ≤ s := by
    rw [hs]
    exact Nat.le_sqrt.mpr (by rw [← pow_two]; exact hcs)
  rcases Nat.eq_zero_or_pos s with h0 | hpos
  · have : n = 0 := by omega
    rw [this]
    simp
  · have hq : (0 : ℚ) < (s : ℚ) := by exact_mod_cast hpos
    exact (div_le_one hq).mpr (by exact_mod_cast hns)

theorem ratCosine_nil_left (corpus : List (List (List Char))) (d : List (List Char)) :
    ratCosine corpus [] d = 0 := by
  unfold ratCosine
  have h : ∀ t ∈ vocabOf [] d, tfidfW corpus [] t * tfidfW corpus d t = 0 := by
    intro t _
    simp [tfidfW]
  rw [Finset.sum_congr rfl h]
  simp

theorem mem_insertHit {x y : ℕ × ℚ} {l : List (ℕ × ℚ)} (h : x ∈ insertHit y l) :
    x = y ∨ x ∈ l := by
  induction l with
  | nil => simpa [insertHit] using h
  | cons a as ih =>
      unfold insertHit at h
      by_cases hc : a.2 < y.2 ∨ (y.2 = a.2 ∧ y.1 ≤ a.1)
      · rw [if_pos hc] at h
        rcases List.mem_cons.mp h with h1 | h1
        · exact Or.inl h1
        · exact Or.inr h1
      · rw [if_neg hc] at h
        rcases List.mem_cons.mp h with h1 | h1
        · exact Or.inr (h1 ▸ List.mem_cons_self a as)
        · rcases ih h1 with h2 | h2
          · exact Or.inl h2
          · exact Or.inr (List.mem_cons_of_mem a h2)

theorem mem_sortHits {x : ℕ × ℚ} {l : List (ℕ × ℚ)} (h : x ∈ sortHits l) : x ∈ l := by
  induction l with
  | nil => simp [sortHits] at h
  | cons a as ih =>
      unfold sortHits at h
      rcases mem_insertHit h with h1 | h1
      · exact h1 ▸ List.mem_cons_self a as
      · exact List.mem_cons_of_mem a (ih h1)

theorem mem_allHits {profiles : List SupplierProfile} {q : String} {h : ℕ × ℚ}
    (hm : h ∈ allHits profiles q) :
    ∃ p ∈ profiles, ∃ d ∈ profileDocs p,
      h = (p.id, ratCosine (corpusOf profiles) (docOf q) d) := by
  rcases List.mem_flatMap.mp hm with ⟨p, hp, hmem⟩
  rcases List.mem_map.mp hmem with ⟨d, hd, rfl⟩
  exact ⟨p, hp, d, hd, rfl⟩

theorem tvScore_nonneg (profiles : List SupplierProfile) (q : String)
    (p : SupplierProfile) : 0 ≤ tvScore profiles q p :=
  bestOf_nonneg _

theorem tvScore_le_one (profiles : List SupplierProfile) (q : String)
    (p : SupplierProfile) : tvScore profiles q p ≤ 1 := by
  refine bestOf_le_one _ ?_
  intro x hx
  rcases List.mem_filterMap.mp hx with ⟨h, hh, hsome⟩
  have hx2 : x = h.2 := by
    by_cases hc : h.1 = p.id
    · rw [if_pos hc] at hsome; exact (Option.some_inj.mp hsome).symm
    · rw [if_neg hc] at hsome; cases hsome
  have hmem : h ∈ allHits profiles q := mem_sortHits (List.mem_of_mem_take hh)
  rcases mem_allHits hmem with ⟨p', _, d, _, rfl⟩
  rw [hx2]
  exact ratCosine_le_one _ _ _

theorem hybridScore_nonneg (profiles : List SupplierProfile) (q : String)
    (p : SupplierProfile) : 0 ≤ hybridScore profiles q p := by
  unfold hybridScore hybridScoreW
  have h1 := tvScore_nonneg profiles q p
  have h2 := editScore_nonneg q p
  linarith

theorem hybridScore_le_one (profiles : List SupplierProfile) (q : String)
    (p : SupplierProfile) : hybridScore profiles q p ≤ 1 := by
  unfold hybridScore hybridScoreW
  have h1 := tvScore_le_one profiles q p
  have h2 := editScore_le_one q p
  linarith

theorem scoreOf_nonneg (st : Strategy) (profiles : List SupplierProfile)
    (q : String) (p : SupplierProfile) : 0 ≤ scoreOf st profiles q p := by
  cases st with
  | termVector => exact tvScore_nonneg profiles q p
  | editDistance => exact editScore_nonneg q p
  | hybrid => exact hybridScore_nonneg profiles q p
  | shingle => exact shingleScore_nonneg q p

theorem scoreOf_le_one (st : Strategy) (profiles : List SupplierProfile)
    (q : String) (p : SupplierProfile) : scoreOf st profiles q p ≤ 1 := by
  cases st with
  | termVector => exact tvScore_le_one profiles q p
  | editDistance => exact editScore_le_one q p
  | hybrid => exact hybridScore_le_one profiles q p
  | shingle => exact shingleScore_le_one q p

theorem better_eq_or (a b : ℕ × ℚ) : better a b = a ∨ better a b = b := by
  unfold better
  by_cases h : a.2 < b.2 ∨ (a.2 = b.2 ∧ b.1 < a.1)
  · rw [if_pos h]; exact Or.inr rfl
  · rw [if_neg h]; exact Or.inl rfl

theorem le_better_left (a b : ℕ × ℚ) : a.2 ≤ (better a b).2 := by
  unfold better
  by_cases h : a.2 < b.2 ∨ (a.2 = b.2 ∧ b.1 < a.1)
  · rw [if_pos h]
    rcases h with h | h
    · exact le_of_lt h
    · exact le_of_eq h.1
  · rw [if_neg h]

theorem le_better_right (a b : ℕ × ℚ) : b.2 ≤ (better a b).2 := by
  unfold better
  by_cases h : a.2 < b.2 ∨ (a.2 = b.2 ∧ b.1 < a.1)
  · rw [if_pos h]
  · rw [if_neg h]
    push_neg at h
    exact h.1

/-- The fold underlying pickBest returns a member of the candidate list whose
score dominates every candidate and whose supplier id is smallest among the
candidates tying the winning score. -/
theorem foldl_better_spec (xs : List (ℕ × ℚ)) : ∀ x : ℕ × ℚ,
    (xs.foldl better x ∈ x :: xs) ∧
    (∀ c ∈ x :: xs, c.2 ≤ (xs.foldl better x).2) ∧
    (∀ c ∈ x :: xs, c.2 = (xs.foldl better x).2 → (xs.foldl better x).1 ≤ c.1) := by
  induction xs with
  | nil =>
      intro x
      refine ⟨by simp, ?_, ?_⟩
      · intro c hc
        rcases List.mem_cons.mp hc with h | h
        · subst h; simp
        · cases h
      · intro c hc he
        rcases List.mem_cons.mp hc with h | h
        · subst h; simp
        · cases h
  | cons a as ih =>
      intro x
      simp only [List.foldl_cons]
      obtain ⟨ihm, ihge, ihtie⟩ := ih (better x a)
      have hBhead : better x a ∈ better x a :: as := List.mem_cons_self _ _
      have hBge : (better x a).2 ≤ (as.foldl better (better x a)).2 := ihge _ hBhead
      refine ⟨?_, ?_, ?_⟩
      · rcases List.mem_cons.mp ihm with h | h
        · rw [h]
          rcases better_eq_or x a with hb | hb <;> rw [hb]
          · exact List.mem_cons_self _ _
          · exact List.mem_cons_of_mem x (List.mem_cons_self _ _)
        · exact List.mem_cons_of_mem x (List.mem_cons_of_mem a h)
      · intro c hc
        rcases List.mem_cons.mp hc with h | h
        · subst h
          exact le_trans (le_better_left c a) hBge
        · rcases List.mem_cons.mp h with h1 | h1
          · subst h1
            exact le_trans (le_better_right x c) hBge
          · exact ihge c (List.mem_cons_of_mem _ h1)
      · intro c hc he
        rcases List.mem_cons.mp hc with h | h
        · subst h
          by_cases hcond : c.2 < a.2 ∨ (c.2 = a.2 ∧ a.1 < c.1)
          · have hb : better c a = a := by unfold better; rw [if_pos hcond]
            rw [hb] at ihge ihtie hBge he ⊢
            rcases hcond with h1 | h1
            · exfalso
              have : a.2 ≤ c.2 := he ▸ hBge
              exact absurd (lt_of_le_of_lt this h1) (lt_irrefl _)
            · have ha2 : a.2 = (as.foldl better a).2 := h1.1 ▸ he
              exact le_of_lt (lt_of_le_of_lt
                (ihtie a (List.mem_cons_self _ _) ha2) h1.2)
          · have hb : better c a = c := by unfold better; rw [if_neg hcond]
            rw [hb] at ihtie he ⊢
            exact ihtie c (List.mem_cons_self _ _) he
        · rcases List.mem_cons.mp h with h1 | h1
          · subst h1
            by_cases hcond : x.2 < c.2 ∨ (x.2 = c.2 ∧ c.1 < x.1)
            · have hb : better x c = c := by unfold better; rw [if_pos hcond]
              rw [hb] at ihtie he ⊢
              exact ihtie c (List.mem_cons_self _ _) he
            · have hb : better x c = x := by unfold better; rw [if_neg hcond]
              rw [hb] at ihge ihtie hBge he ⊢
              push_neg at hcond
              have hxc : x.2 = c.2 :=
                le_antisymm (hBge.trans (le_of_eq he.symm)) hcond.1
              have hid : x.1 ≤ c.1 := hcond.2 hxc
              have hx2r : x.2 = (as.foldl better x).2 := hxc.trans he
              exact le_trans (ihtie x (List.mem_cons_self _ _) hx2r) hid
          · exact ihtie c (List.mem_cons_of_mem _ h1) he


theorem bestOf_le (l : List ℚ) (c : ℚ) (hc : 0 ≤ c) (h : ∀ x ∈ l, x ≤ c) :
    bestOf l ≤ c := by
  induction l with
  | nil => simpa [bestOf] using hc
  | cons x xs ih =>
      simp only [bestOf, List.foldr_cons, max_le_iff]
      exact ⟨h x (List.mem_cons_self x xs), ih (fun y hy => h y (List.mem_cons_of_mem x hy))⟩

theorem bestOf_eq_zero (l : List ℚ) (h : ∀ x ∈ l, x = 0) : bestOf l = 0 :=
  le_antisymm (bestOf_le l 0 le_rfl (fun x hx => le_of_eq (h x hx))) (bestOf_nonneg l)

theorem editSim_nil_left {b : List Char} (hb : b ≠ []) : editSim [] b = 0 := by
  unfold editSim
  rw [levenshtein_nil_left]
  have h0 : (([] : List Char).length : ℚ) = 0 := by simp
  have hlen : 0 < b.length := List.length_pos.mpr hb
  have hpos : (0 : ℚ) < (b.length : ℚ) := by exact_mod_cast hlen
  rw [h0, max_eq_right (le_of_lt hpos), div_self (ne_of_gt hpos)]
  ring

theorem docOf_empty : docOf "" = [] := by decide

theorem tv_filterMap_mem {profiles : List SupplierProfile} {q : String}
    {p : SupplierProfile} {x : ℚ}
    (hx : x ∈ ((sortHits (allHits profiles q)).take defaultK).filterMap
      (fun h => if h.1 = p.id then some h.2 else none)) :
    ∃ p' ∈ profiles, ∃ d ∈ profileDocs p',
      x = ratCosine (corpusOf profiles) (docOf q) d := by
  rcases List.mem_filterMap.mp hx with ⟨h, hh, hsome⟩
  have hx2 : x = h.2 := by
    by_cases hc : h.1 = p.id
    · rw [if_pos hc] at hsome; exact (Option.some_inj.mp hsome).symm
    · rw [if_neg hc] at hsome; cases hsome
  have hmem : h ∈ allHits profiles q := mem_sortHits (List.mem_of_mem_take hh)
  rcases mem_allHits hmem with ⟨p', hp', d, hd, heq⟩
  exact ⟨p', hp', d, hd, by rw [hx2, heq]⟩

theorem tvScore_empty (profiles : List SupplierProfile) (p : SupplierProfile) :
    tvScore profiles "" p = 0 := by
  apply bestOf_eq_zero
  intro x hx
  rcases tv_filterMap_mem hx with ⟨p', _, d, _, heq⟩
  rw [heq, docOf_empty]
  exact ratCosine_nil_left _ _

theorem editScore_empty (p : SupplierProfile)
    (hne : ∀ e ∈ p.examples, e ≠ "") : editScore "" p = 0 := by
  apply bestOf_eq_zero
  intro x hx
  rcases List.mem_map.mp hx with ⟨e, he, rfl⟩
  have hd : normalizeLightL ("".data) = [] := by decide
  rw [hd]
  refine editSim_nil_left ?_
  intro hc
  refine hne e he ?_
  exact congrArg String.mk hc

theorem hybridScore_empty (profiles : List SupplierProfile) (p : SupplierProfile)
    (hne : ∀ e ∈ p.examples, e ≠ "") : hybridScore profiles "" p = 0 := by
  unfold hybridScore hybridScoreW
  rw [tvScore_empty, editScore_empty p hne]
  ring

theorem scoreOf_empty (st : Strategy) (profiles : List SupplierProfile)
    (p : SupplierProfile) (hne : ∀ e ∈ p.examples, e ≠ "") :
    scoreOf st profiles "" p = 0 := by
  cases st with
  | termVector => exact tvScore_empty profiles p
  | editDistance => exact editScore_empty p hne
  | hybrid => exact hybridScore_empty profiles p hne
  | shingle => exact shingleScore_empty p

theorem pickBest_mem {l : List (ℕ × ℚ)} {c : ℕ × ℚ} (h : pickBest l = some c) :
    c ∈ l := by
  cases l with
  | nil => cases h
  | cons x xs =>
      have hmem := (foldl_better_spec xs x).1
      have he : xs.foldl better x = c := Option.some_inj.mp h
      rw [he] at hmem
      exact hmem

/-- The selection core of the Matcher: over a nonempty profile list, pickBest
on the (id, score) candidates returns the id and score of a profile whose
score dominates all profiles and whose id is smallest among equal scorers. -/
theorem argmax_spec (g : SupplierProfile → ℚ) (profiles : List SupplierProfile)
    (h : profiles ≠ []) :
    ∃ p ∈ profiles,
      pickBest (profiles.map (fun q => (q.id, g q))) = some (p.id, g p) ∧
      (∀ q ∈ profiles, g q ≤ g p) ∧
      (∀ q ∈ profiles, g q = g p → p.id ≤ q.id) := by
  cases profiles with
  | nil => exact absurd rfl h
  | cons p0 rest =>
      obtain ⟨hmem, hge, htie⟩ :=
        foldl_better_spec (rest.map (fun q => (q.id, g q))) (p0.id, g p0)
      have hmem2 : (rest.map (fun q => (q.id, g q))).foldl better (p0.id, g p0) ∈
          (p0 :: rest).map (fun q => (q.id, g q)) := by
        rw [List.map_cons]; exact hmem
      rcases List.mem_map.mp hmem2 with ⟨p, hp, hpr⟩
      have hpr2 : (p.id, g p) =
          (rest.map (fun q => (q.id, g q))).foldl better (p0.id, g p0) := hpr
      refine ⟨p, hp, ?_, ?_, ?_⟩
      · show pickBest ((p0 :: rest).map (fun q => (q.id, g q))) = _
        rw [List.map_cons]
        show some ((rest.map (fun q => (q.id, g q))).foldl better (p0.id, g p0)) = _
        rw [← hpr2]
      · intro q hq
        have hin : (q.id, g q) ∈ (p0.id, g p0) :: rest.map (fun q => (q.id, g q)) :=
          List.mem_map_of_mem (fun q => (q.id, g q)) hq
        have hle := hge (q.id, g q) hin
        rw [← hpr2] at hle
        exact hle
      · intro q hq he
        have hin : (q.id, g q) ∈ (p0.id, g p0) :: rest.map (fun q => (q.id, g q)) :=
          List.mem_map_of_mem (fun q => (q.id, g q)) hq
        have h2 : (q.id, g q).2 =
            ((rest.map (fun q => (q.id, g q))).foldl better (p0.id, g p0)).2 := by
          rw [← hpr2]; exact he
        have hid := htie (q.id, g q) hin h2
        rw [← hpr2] at hid
        exact hid

theorem matchOne_eq (desc : String) (profiles : List SupplierProfile)
    (st : Strategy) (threshold : ℚ) (c : ℕ × ℚ)
    (h : pickBest (profiles.map (fun p => (p.id, scoreOf st profiles desc p))) = some c) :
    matchOne desc profiles st threshold =
      if threshold ≤ c.2 then some ⟨c.1, 100 * c.2, st.label⟩ else none := by
  unfold matchOne
  rw [h]

theorem matchOne_isSome_mono (d : String) (ps : List SupplierProfile)
    (st : Strategy) {t1 t2 : ℚ} (hle : t1 ≤ t2)
    (h : (matchOne d ps st t2).isSome = true) :
    (matchOne d ps st t1).isSome = true := by
  cases hpb : pickBest (ps.map (fun p => (p.id, scoreOf st ps d p))) with
  | none =>
      rw [matchOne, hpb] at h
      simp at h
  | some c =>
      rw [matchOne_eq d ps st t2 c hpb] at h
      rw [matchOne_eq d ps st t1 c hpb]
      by_cases h2 : t2 ≤ c.2
      · rw [if_pos (le_trans hle h2)]; rfl
      · rw [if_neg h2] at h; simp at h

theorem matchOne_some_inv {d : String} {ps : List SupplierProfile}
    {st : Strategy} {t : ℚ} {r : MatchResult} (h : matchOne d ps st t = some r) :
    ∃ p ∈ ps, r.supplier = p.id ∧ r.confidence = 100 * scoreOf st ps d p ∧
      r.strategy = st.label ∧ t ≤ scoreOf st ps d p := by
  cases hpb : pickBest (ps.map (fun p => (p.id, scoreOf st ps d p))) with
  | none =>
      rw [matchOne, hpb] at h
      cases h
  | some c =>
      rw [matchOne_eq d ps st t c hpb] at h
      by_cases hth : t ≤ c.2
      · rw [if_pos hth] at h
        have hr : r = ⟨c.1, 100 * c.2, st.label⟩ := (Option.some_inj.mp h).symm
        rcases List.mem_map.mp (pickBest_mem hpb) with ⟨p, hp, hpc⟩
        have hpc2 : (p.id, scoreOf st ps d p) = c := hpc
        refine ⟨p, hp, ?_, ?_, ?_, ?_⟩
        · rw [hr, ← hpc2]
        · rw [hr, ← hpc2]
        · rw [hr]
        · rw [← hpc2] at hth; exact hth
      · rw [if_neg hth] at h
        cases h



theorem length_filter_filter_le {α : Type} (P Q : α → Bool) (l : List α) :
    ((l.filter P).filter Q).length ≤ (l.filter Q).length := by
  induction l with
  | nil => simp
  | cons a as ih =>
      by_cases hP : P a <;> by_cases hQ : Q a <;>
        simp only [List.filter_cons, hP, hQ, if_true, if_false, List.length_cons,
          Bool.false_eq_true, ite_false, ite_true] <;> omega

theorem updateRow_some (acct : String) (v : ℕ) (r : TxnRow) {w : ℕ}
    (h : r.bank_account_id = some w) : updateRow acct v r = r := by
  unfold updateRow
  rw [if_neg]
  rintro ⟨_, h2⟩
  rw [h] at h2
  cases h2

theorem updateRow_keeps_set (acct : String) (v : ℕ) (r : TxnRow)
    (h : r.bank_account_id ≠ none) : updateRow acct v r = r := by
  unfold updateRow
  rw [if_neg]
  rintro ⟨_, h2⟩
  exact h h2

theorem runUpdatesRow_some (ps : List (String × ℕ)) (r : TxnRow) {w : ℕ}
    (h : r.bank_account_id = some w) : runUpdatesRow ps r = r := by
  induction ps with
  | nil => rfl
  | cons p ps ih =>
      show runUpdatesRow ps (updateRow p.1 p.2 r) = r
      rw [updateRow_some p.1 p.2 r h]
      exact ih

theorem updateRow_none_inv (acct : String) (v : ℕ) (r : TxnRow)
    (h : (updateRow acct v r).bank_account_id = none) : updateRow acct v r = r := by
  by_cases hc : r.account_id = acct ∧ r.bank_account_id = none
  · unfold updateRow at h
    rw [if_pos hc] at h
    cases h
  · unfold updateRow
    rw [if_neg hc]

theorem runUpdatesRow_none (ps : List (String × ℕ)) (r : TxnRow)
    (h : (runUpdatesRow ps r).bank_account_id = none) : runUpdatesRow ps r = r := by
  induction ps generalizing r with
  | nil => rfl
  | cons p ps ih =>
      have hshow : runUpdatesRow (p :: ps) r = runUpdatesRow ps (updateRow p.1 p.2 r) :=
        rfl
      rw [hshow] at h ⊢
      have h1 := ih (updateRow p.1 p.2 r) h
      rw [h1] at h ⊢
      exact updateRow_none_inv p.1 p.2 r h

theorem runUpdatesRow_idem (ps : List (String × ℕ)) (r : TxnRow) :
    runUpdatesRow ps (runUpdatesRow ps r) = runUpdatesRow ps r := by
  cases h : (runUpdatesRow ps r).bank_account_id with
  | none =>
      have he := runUpdatesRow_none ps r h
      rw [he]
      exact he
  | some w => exact runUpdatesRow_some ps _ h

theorem runScript_idem_pointwise (rows : List TxnRow) :
    runScript (runScript rows) = runScript rows := by
  induction rows with
  | nil => rfl
  | cons r rows ih =>
      show (runUpdatesRow accountPairs (runUpdatesRow accountPairs r)) ::
          runScript (runScript rows) =
        (runUpdatesRow accountPairs r) :: runScript rows
      rw [runUpdatesRow_idem accountPairs r, ih]



/-- C1: for every description, every non-empty profile list, every strategy
and every threshold, the Matcher scores the description against every
retained profile, selects the maximum-scoring profile (ties broken by
supplier id ascending); if the top score reaches the threshold it returns a
MatchResult with that supplier, confidence = score rescaled to the 0-100
range and the strategy name, otherwise it returns no match. -/
theorem claimC1_matcher_policy (desc : String) (profiles : List SupplierProfile)
    (st : Strategy) (threshold : ℚ) (h : profiles ≠ []) :
    ∃ p ∈ profiles,
      (∀ q ∈ profiles, scoreOf st profiles desc q ≤ scoreOf st profiles desc p) ∧
      (∀ q ∈ profiles, scoreOf st profiles desc q = scoreOf st profiles desc p →
        p.id ≤ q.id) ∧
      (threshold ≤ scoreOf st profiles desc p →
        matchOne desc profiles st threshold =
          some ⟨p.id, 100 * scoreOf st profiles desc p, st.label⟩) ∧
      (scoreOf st profiles desc p < threshold →
        matchOne desc profiles st threshold = none) := by
  obtain ⟨p, hp, hpb, hge, htie⟩ := argmax_spec (scoreOf st profiles desc) profiles h
  refine ⟨p, hp, hge, htie, ?_, ?_⟩
  · intro hth
    rw [matchOne_eq desc profiles st threshold _ hpb, if_pos hth]
  · intro hth
    rw [matchOne_eq desc profiles st threshold _ hpb, if_neg (not_le.mpr hth)]

theorem claimC1_witness :
    ([({ id := 1, examples := ["acme"], category := 0 } : SupplierProfile),
      { id := 2, examples := ["zeta"], category := 1 }] ≠ []) ∧
    (∃ p ∈ [({ id := 1, examples := ["acme"], category := 0 } : SupplierProfile),
        { id := 2, examples := ["zeta"], category := 1 }],
      (∀ q ∈ [({ id := 1, examples := ["acme"], category := 0 } : SupplierProfile),
          { id := 2, examples := ["zeta"], category := 1 }],
        scoreOf .editDistance [{ id := 1, examples := ["acme"], category := 0 },
          { id := 2, examples := ["zeta"], category := 1 }] "acme" q ≤
        scoreOf .editDistance [{ id := 1, examples := ["acme"], category := 0 },
          { id := 2, examples := ["zeta"], category := 1 }] "acme" p) ∧
      (∀ q ∈ [({ id := 1, examples := ["acme"], category := 0 } : SupplierProfile),
          { id := 2, examples := ["zeta"], category := 1 }],
        scoreOf .editDistance [{ id := 1, examples := ["acme"], category := 0 },
          { id := 2, examples := ["zeta"], category := 1 }] "acme" q =
        scoreOf .editDistance [{ id := 1, examples := ["acme"], category := 0 },
          { id := 2, examples := ["zeta"], category := 1 }] "acme" p →
        p.id ≤ q.id) ∧
      ((1 : ℚ) / 2 ≤ scoreOf .editDistance
          [{ id := 1, examples := ["acme"], category := 0 },
            { id := 2, examples := ["zeta"], category := 1 }] "acme" p →
        matchOne "acme" [{ id := 1, examples := ["acme"], category := 0 },
            { id := 2, examples := ["zeta"], category := 1 }] .editDistance (1 / 2) =
          some ⟨p.id, 100 * scoreOf .editDistance
            [{ id := 1, examples := ["acme"], category := 0 },
              { id := 2, examples := ["zeta"], category := 1 }] "acme" p,
            Strategy.label .editDistance⟩) ∧
      (scoreOf .editDistance [{ id := 1, examples := ["acme"], category := 0 },
          { id := 2, examples := ["zeta"], category := 1 }] "acme" p < 1 / 2 →
        matchOne "acme" [{ id := 1, examples := ["acme"], category := 0 },
            { id := 2, examples := ["zeta"], category := 1 }] .editDistance (1 / 2) =
          none)) :=
  ⟨by decide,
   claimC1_matcher_policy "acme"
     [{ id := 1, examples := ["acme"], category := 0 },
      { id := 2, examples := ["zeta"], category := 1 }] .editDistance (1 / 2)
     (by decide)⟩

/-- C2: every similarity produced by any scorer lies in [0, 1], every
confidence reported by the Matcher lies in [0, 100], and a confidence is
always an explicit 100-fold rescaling of some retained profile's similarity —
the two scales are never silently mixed. -/
theorem claimC2_score_ranges (st : Strategy) (profiles : List SupplierProfile)
    (q : String) (p : SupplierProfile) (threshold : ℚ) (r : MatchResult)
    (h : matchOne q profiles st threshold = some r) :
    (0 ≤ scoreOf st profiles q p ∧ scoreOf st profiles q p ≤ 1) ∧
    (0 ≤ r.confidence ∧ r.confidence ≤ 100 ∧
      ∃ p2 ∈ profiles, r.confidence = 100 * scoreOf st profiles q p2) := by
  refine ⟨⟨scoreOf_nonneg st profiles q p, scoreOf_le_one st profiles q p⟩, ?_⟩
  rcases matchOne_some_inv h with ⟨p2, hp2, _, hconf, _, _⟩
  have h0 := scoreOf_nonneg st profiles q p2
  have h1 := scoreOf_le_one st profiles q p2
  exact ⟨by rw [hconf]; linarith, by rw [hconf]; linarith, p2, hp2, hconf⟩

theorem claimC2_witness :
    (matchOne "acme" [({ id := 1, examples := ["acme"], category := 0 } :
        SupplierProfile)] .editDistance (1 / 2) =
      some ⟨1, 100, Strategy.label .editDistance⟩) ∧
    ((0 ≤ scoreOf .editDistance [({ id := 1, examples := ["acme"], category := 0 } :
        SupplierProfile)] "acme" { id := 1, examples := ["acme"], category := 0 } ∧
      scoreOf .editDistance [({ id := 1, examples := ["acme"], category := 0 } :
        SupplierProfile)] "acme" { id := 1, examples := ["acme"], category := 0 } ≤ 1) ∧
    (0 ≤ (MatchResult.mk 1 100 (Strategy.label .editDistance)).confidence ∧
      (MatchResult.mk 1 100 (Strategy.label .editDistance)).confidence ≤ 100 ∧
      ∃ p2 ∈ [({ id := 1, examples := ["acme"], category := 0 } : SupplierProfile)],
        (MatchResult.mk 1 100 (Strategy.label .editDistance)).confidence =
          100 * scoreOf .editDistance
            [({ id := 1, examples := ["acme"], category := 0 } : SupplierProfile)]
            "acme" p2)) :=
  ⟨by decide,
   claimC2_score_ranges .editDistance
     [{ id := 1, examples := ["acme"], category := 0 }] "acme"
     { id := 1, examples := ["acme"], category := 0 } (1 / 2)
     ⟨1, 100, Strategy.label .editDistance⟩ (by decide)⟩

/-- C3: the Matcher is deterministic — on equal descriptions, equal profile
sets, equal strategies and equal thresholds it returns equal MatchResults, so
re-running the engine on unchanged inputs reproduces identical output (the
engine is embedded as a pure function of its inputs). -/
theorem claimC3_deterministic (d1 d2 : String) (ps1 ps2 : List SupplierProfile)
    (st1 st2 : Strategy) (t1 t2 : ℚ) (hd : d1 = d2) (hp : ps1 = ps2)
    (hs : st1 = st2) (ht : t1 = t2) :
    matchOne d1 ps1 st1 t1 = matchOne d2 ps2 st2 t2 := by
  rw [hd, hp, hs, ht]

theorem claimC3_witness :
    ("acme" = "acme") ∧
    matchOne "acme" [({ id := 1, examples := ["acme"], category := 0 } :
        SupplierProfile)] .shingle (1 / 2) =
      matchOne "acme" [({ id := 1, examples := ["acme"], category := 0 } :
        SupplierProfile)] .shingle (1 / 2) :=
  ⟨rfl, claimC3_deterministic "acme" "acme"
    [{ id := 1, examples := ["acme"], category := 0 }]
    [{ id := 1, examples := ["acme"], category := 0 }] .shingle .shingle
    (1 / 2) (1 / 2) rfl rfl rfl rfl⟩

/-- C4: the Edit-Distance Scorer's normalized similarity equals
1 - levenshtein(A, B) / max(len A, len B), it is symmetric in its two
arguments, and a supplier's edit-distance score is the maximum of this
similarity over the supplier's example descriptions. -/
theorem claimC4_edit_scorer (a b : List Char) (q : String) (p : SupplierProfile) :
    editSim a b = 1 - (levenshtein a b : ℚ) / (max (a.length : ℚ) (b.length : ℚ)) ∧
    editSim a b = editSim b a ∧
    (∀ e ∈ p.examples, editSim (normalizeLightL q.data) e.data ≤ editScore q p) ∧
    (p.examples ≠ [] →
      ∃ e ∈ p.examples, editScore q p = editSim (normalizeLightL q.data) e.data) := by
  refine ⟨rfl, editSim_comm a b, ?_, ?_⟩
  · intro e he
    exact le_bestOf _ _ (List.mem_map_of_mem _ he)
  · intro hne
    have hmap : p.examples.map (fun e => editSim (normalizeLightL q.data) e.data) ≠ [] := by
      simpa using hne
    have hnn : ∀ x ∈ p.examples.map (fun e => editSim (normalizeLightL q.data) e.data),
        0 ≤ x := by
      intro x hx
      rcases List.mem_map.mp hx with ⟨e, _, rfl⟩
      exact editSim_nonneg _ _
    have hmem := bestOf_mem _ hmap hnn
    rcases List.mem_map.mp hmem with ⟨e, he, heq⟩
    exact ⟨e, he, heq.symm⟩

theorem claimC4_witness :
    (editSim ('a' :: 'b' :: []) ('b' :: 'a' :: []) =
      editSim ('b' :: 'a' :: []) ('a' :: 'b' :: [])) ∧
    (∃ e ∈ ({ id := 1, examples := ["ab"], category := 0 } :
        SupplierProfile).examples,
      editScore "ab" { id := 1, examples := ["ab"], category := 0 } =
        editSim (normalizeLightL ("ab").data) e.data) :=
  ⟨(claimC4_edit_scorer ('a' :: 'b' :: []) ('b' :: 'a' :: []) "ab"
      { id := 1, examples := ["ab"], category := 0 }).2.1,
   (claimC4_edit_scorer ('a' :: 'b' :: []) ('b' :: 'a' :: []) "ab"
      { id := 1, examples := ["ab"], category := 0 }).2.2.2 (by decide)⟩

/-- C5: on profile sets whose examples are nonempty descriptions (empty
descriptions are disqualified upstream), normalizing the empty description
yields the empty string, every scorer gives it similarity 0, matching it at
any positive threshold yields no match, and any match it could ever yield (at
threshold 0) carries confidence 0. -/
theorem claimC5_empty_safe (profiles : List SupplierProfile) (st : Strategy)
    (threshold : ℚ) (hex : ∀ p ∈ profiles, ∀ e ∈ p.examples, e ≠ "") :
    normalizeLight "" = "" ∧
    (∀ p ∈ profiles, scoreOf st profiles "" p = 0) ∧
    (0 < threshold → matchOne "" profiles st threshold = none) ∧
    (∀ r, matchOne "" profiles st threshold = some r → r.confidence = 0) := by
  have hz : ∀ p ∈ profiles, scoreOf st profiles "" p = 0 :=
    fun p hp => scoreOf_empty st profiles p (hex p hp)
  refine ⟨normalizeLight_empty, hz, ?_, ?_⟩
  · intro hth
    cases hpb : pickBest (profiles.map (fun p => (p.id, scoreOf st profiles "" p))) with
    | none => rw [matchOne, hpb]
    | some c =>
        have hcm := pickBest_mem hpb
        rcases List.mem_map.mp hcm with ⟨p, hp, hpc⟩
        have hc2 : c.2 = 0 := by rw [← hpc]; exact hz p hp
        rw [matchOne_eq _ _ _ _ c hpb, if_neg (by rw [hc2]; exact not_le.mpr hth)]
  · intro r hr
    rcases matchOne_some_inv hr with ⟨p2, hp2, _, hconf, _, _⟩
    rw [hconf, hz p2 hp2, mul_zero]

theorem claimC5_witness :
    (∀ p ∈ [({ id := 1, examples := ["acme"], category := 0 } : SupplierProfile)],
      ∀ e ∈ p.examples, e ≠ "") ∧
    (normalizeLight "" = "" ∧
      (∀ p ∈ [({ id := 1, examples := ["acme"], category := 0 } : SupplierProfile)],
        scoreOf .hybrid [({ id := 1, examples := ["acme"], category := 0 } :
          SupplierProfile)] "" p = 0) ∧
      ((0 : ℚ) < 1 / 2 →
        matchOne "" [({ id := 1, examples := ["acme"], category := 0 } :
          SupplierProfile)] .hybrid (1 / 2) = none) ∧
      (∀ r, matchOne "" [({ id := 1, examples := ["acme"], category := 0 } :
          SupplierProfile)] .hybrid (1 / 2) = some r → r.confidence = 0)) :=
  ⟨by decide,
   claimC5_empty_safe [{ id := 1, examples := ["acme"], category := 0 }]
     .hybrid (1 / 2) (by decide)⟩

/-- C6: for a fixed description set, profile set and strategy, the set of
descriptions accepted at a higher threshold T2 > T1 is a subset of the set
accepted at T1 — raising the threshold never adds an accepted match. -/
theorem claimC6_threshold_monotone (descs : List String)
    (profiles : List SupplierProfile) (st : Strategy) {t1 t2 : ℚ} (h : t1 < t2) :
    acceptedAt descs profiles st t2 ⊆ acceptedAt descs profiles st t1 := by
  intro d hd
  rcases List.mem_filter.mp hd with ⟨hdm, hsome⟩
  exact List.mem_filter.mpr ⟨hdm, matchOne_isSome_mono d profiles st (le_of_lt h) hsome⟩

theorem claimC6_witness :
    ((1 : ℚ) / 4 < 1 / 2) ∧
    acceptedAt ["acme", "zeta"]
        [({ id := 1, examples := ["acme"], category := 0 } : SupplierProfile)]
        .editDistance (1 / 2) ⊆
      acceptedAt ["acme", "zeta"]
        [({ id := 1, examples := ["acme"], category := 0 } : SupplierProfile)]
        .editDistance (1 / 4) :=
  ⟨by norm_num,
   claimC6_threshold_monotone ["acme", "zeta"]
     [{ id := 1, examples := ["acme"], category := 0 }] .editDistance
     (by norm_num)⟩

/-- C7: the Hybrid Scorer's score is the weighted sum of the Term-Vector and
Edit-Distance scores, with default weights 0.6 and 0.4 and configurable
weights in general; both sub-scores always enter the sum — the equations hold
unconditionally, with no short-circuit. -/
theorem claimC7_hybrid_weighted (profiles : List SupplierProfile) (q : String)
    (p : SupplierProfile) (w1 w2 : ℚ) :
    hybridScore profiles q p =
      (6 / 10) * tvScore profiles q p + (4 / 10) * editScore q p ∧
    hybridScoreW w1 w2 profiles q p =
      w1 * tvScore profiles q p + w2 * editScore q p :=
  ⟨rfl, rfl⟩



/-- C8: build_profiles returns no profile for a supplier with fewer than
min_examples labeled transactions — such suppliers are silently excluded —
and with a positive min_examples every retained profile carries at least one
example, so a zero-example profile is never in the candidate set the Matcher
scores. -/
theorem claimC8_min_examples (txns : List LabeledTxn) (minExamples : ℕ)
    (p : SupplierProfile) (hp : p ∈ buildProfiles txns minExamples) :
    minExamples ≤ (txns.filter (fun t => t.supplier = p.id)).length ∧
    (1 ≤ minExamples → p.examples ≠ []) := by
  rcases List.mem_filterMap.mp hp with ⟨i, hi, hsome⟩
  by_cases hc : minExamples ≤ ((eligible txns).filter (fun t => t.supplier = i)).length
  · rw [if_pos hc] at hsome
    have hpe : p = ⟨i, (((eligible txns).filter (fun t => t.supplier = i)).map
        (fun t => normalizeLight t.desc)).dedup,
      modalCategory (((eligible txns).filter (fun t => t.supplier = i)).map
        (fun t => t.category))⟩ := (Option.some_inj.mp hsome).symm
    constructor
    · have hle : ((eligible txns).filter (fun t => t.supplier = i)).length ≤
          (txns.filter (fun t => t.supplier = i)).length := by
        unfold eligible
        exact length_filter_filter_le _ _ txns
      have hfin : minExamples ≤ (txns.filter (fun t => t.supplier = i)).length :=
        le_trans hc hle
      rw [hpe]
      exact hfin
    · intro h1
      rw [hpe]
      have hlen : 0 < ((eligible txns).filter (fun t => t.supplier = i)).length :=
        lt_of_lt_of_le (Nat.lt_of_lt_of_le Nat.zero_lt_one h1) hc
      obtain ⟨t0, ht0⟩ := List.exists_mem_of_ne_nil _ (List.length_pos.mp hlen)
      exact List.ne_nil_of_mem
        (List.mem_dedup.mpr (List.mem_map_of_mem (fun t => normalizeLight t.desc) ht0))
  · rw [if_neg hc] at hsome
    cases hsome

theorem claimC8_witness :
    (({ id := 7, examples := ["acme", "acm"], category := 3 } : SupplierProfile) ∈
      buildProfiles [({ supplier := 7, desc := "acme", category := 3 } : LabeledTxn),
        { supplier := 7, desc := "acm", category := 3 },
        { supplier := 8, desc := "solo", category := 1 }] 2) ∧
    (2 ≤ ([({ supplier := 7, desc := "acme", category := 3 } : LabeledTxn),
        { supplier := 7, desc := "acm", category := 3 },
        { supplier := 8, desc := "solo", category := 1 }].filter
        (fun t => t.supplier =
          ({ id := 7, examples := ["acme", "acm"], category := 3 } :
            SupplierProfile).id)).length ∧
      (1 ≤ 2 → ({ id := 7, examples := ["acme", "acm"], category := 3 } :
        SupplierProfile).examples ≠ [])) :=
  ⟨by decide,
   claimC8_min_examples
     [{ supplier := 7, desc := "acme", category := 3 },
      { supplier := 7, desc := "acm", category := 3 },
      { supplier := 8, desc := "solo", category := 1 }] 2
     { id := 7, examples := ["acme", "acm"], category := 3 } (by decide)⟩

/-- C9: running the Batch Applier with dry_run = true performs no write — the
storage state afterwards equals the state before, so
read_unlabeled_transactions returns the same set — while the returned
ApplySummary still counts the matches, so it reports a nonzero matched count
whenever a processed transaction matches. -/
theorem claimC9_dry_run (store : List StoredTxn) (st : Strategy) (threshold : ℚ)
    (limit minExamples : ℕ) (t : StoredTxn)
    (ht : t ∈ (readUnlabeledTransactions store).take limit)
    (hm : (matchOne t.desc (buildProfiles (readLabeledTransactions store) minExamples)
      st threshold).isSome = true) :
    (applyBatch store st threshold limit minExamples true).2 = store ∧
    readUnlabeledTransactions (applyBatch store st threshold limit minExamples true).2 =
      readUnlabeledTransactions store ∧
    0 < (applyBatch store st threshold limit minExamples true).1.matched := by
  have hsnd : (applyBatch store st threshold limit minExamples true).2 = store := rfl
  refine ⟨hsnd, by rw [hsnd], ?_⟩
  have hmt : (applyBatch store st threshold limit minExamples true).1.matched =
      (((readUnlabeledTransactions store).take limit).filterMap (fun u =>
        (matchOne u.desc (buildProfiles (readLabeledTransactions store) minExamples)
          st threshold).map (fun m => (u.tid, m)))).length := rfl
  rw [hmt]
  rcases Option.isSome_iff_exists.mp hm with ⟨m, hm2⟩
  have hmem : (t.tid, m) ∈ ((readUnlabeledTransactions store).take limit).filterMap
      (fun u => (matchOne u.desc (buildProfiles (readLabeledTransactions store)
        minExamples) st threshold).map (fun mr => (u.tid, mr))) :=
    List.mem_filterMap.mpr ⟨t, ht, by rw [hm2]; rfl⟩
  exact List.length_pos.mpr (List.ne_nil_of_mem hmem)

theorem claimC9_witness :
    ((⟨3, "acme", none, none⟩ : StoredTxn) ∈
      (readUnlabeledTransactions
        [(⟨1, "acme", some 7, some 3⟩ : StoredTxn), ⟨2, "acme", some 7, some 3⟩,
         ⟨3, "acme", none, none⟩]).take 5) ∧
    ((applyBatch [(⟨1, "acme", some 7, some 3⟩ : StoredTxn),
        ⟨2, "acme", some 7, some 3⟩, ⟨3, "acme", none, none⟩]
        .editDistance (1 / 2) 5 2 true).2 =
      [(⟨1, "acme", some 7, some 3⟩ : StoredTxn), ⟨2, "acme", some 7, some 3⟩,
       ⟨3, "acme", none, none⟩] ∧
    readUnlabeledTransactions (applyBatch
        [(⟨1, "acme", some 7, some 3⟩ : StoredTxn), ⟨2, "acme", some 7, some 3⟩,
         ⟨3, "acme", none, none⟩] .editDistance (1 / 2) 5 2 true).2 =
      readUnlabeledTransactions
        [(⟨1, "acme", some 7, some 3⟩ : StoredTxn), ⟨2, "acme", some 7, some 3⟩,
         ⟨3, "acme", none, none⟩] ∧
    0 < (applyBatch [(⟨1, "acme", some 7, some 3⟩ : StoredTxn),
        ⟨2, "acme", some 7, some 3⟩, ⟨3, "acme", none, none⟩]
        .editDistance (1 / 2) 5 2 true).1.matched) :=
  ⟨by decide,
   claimC9_dry_run
     [⟨1, "acme", some 7, some 3⟩, ⟨2, "acme", some 7, some 3⟩,
      ⟨3, "acme", none, none⟩] .editDistance (1 / 2) 5 2
     ⟨3, "acme", none, none⟩ (by decide) (by decide)⟩

/-- C10: the bank-account backfill script is idempotent — every UPDATE
assigns bank_account_id only to rows whose bank_account_id IS NULL, a row
with bank_account_id already set is never overwritten, and executing the
script twice leaves every table state exactly as executing it once. -/
theorem claimC10_backfill_idempotent (rows : List TxnRow) :
    (∀ (acct : String) (v : ℕ) (r : TxnRow), r.bank_account_id ≠ none →
      updateRow acct v r = r) ∧
    (∀ r ∈ rows, ∀ w, r.bank_account_id = some w →
      runUpdatesRow accountPairs r = r) ∧
    runScript (runScript rows) = runScript rows := by
  refine ⟨?_, ?_, runScript_idem_pointwise rows⟩
  · intro acct v r h
    exact updateRow_keeps_set acct v r h
  · intro r _ w hw
    exact runUpdatesRow_some accountPairs r hw

theorem claimC10_witness :
    (updateRow "999" 4 (⟨1, "82642706", some 5⟩ : TxnRow) =
      (⟨1, "82642706", some 5⟩ : TxnRow)) ∧
    (runUpdatesRow accountPairs (⟨1, "82642706", some 5⟩ : TxnRow) =
      (⟨1, "82642706", some 5⟩ : TxnRow)) ∧
    runScript (runScript [(⟨1, "82642706", some 5⟩ : TxnRow)]) =
      runScript [(⟨1, "82642706", some 5⟩ : TxnRow)] :=
  ⟨(claimC10_backfill_idempotent [(⟨1, "82642706", some 5⟩ : TxnRow)]).1 "999" 4
     (⟨1, "82642706", some 5⟩ : TxnRow) (by decide),
   (claimC10_backfill_idempotent [(⟨1, "82642706", some 5⟩ : TxnRow)]).2.1
     (⟨1, "82642706", some 5⟩ : TxnRow) (List.mem_cons_self _ _) 5 (by decide),
   (claimC10_backfill_idempotent [(⟨1, "82642706", some 5⟩ : TxnRow)]).2.2⟩


end SupplierMatch

